import Mathlib

/-!
Shallow embedding of the student-record store of
`03-Studentmanger.py` (Student class, `load_students`, `_find_student`,
`delete_record`'s core list filter, `sort_records`'s core sort, grade
computation), together with proofs settling the specification claims.

Modelling conventions:
* Python strings are Lean `String`s; the Python primitives used by the
  source (`str.strip`, `str.split(",")`, `str.lower`, `in`, `int(...)`,
  `str(int)`) are modelled explicitly over the character list, faithful
  to Python's (ASCII) behaviour.  `int(...)` raising `ValueError` is
  modelled as `Option`/`Except`.
* File I/O is out of scope; `load_students` is modelled on the text
  content of the file that the source reads.
* `Student.percentage` is computed in `ℚ` instead of IEEE doubles.  For
  every integer `total`, the Python float computation
  `(total / 160.0) * 100` compares against the thresholds 70/60/50/40
  exactly as the rational value `total * 100 / 160` does (the only
  totals whose exact percentage hits a threshold are 112, 96, 80 and 64,
  and for each of them the float computation yields the threshold value
  exactly), so the rational model decides grades identically.
* CPython's `list.sort` is a stable sort; a stable sort by a key is
  uniquely determined by its input, and `List.insertionSort` with the
  corresponding reflexive total relation produces exactly that unique
  stable result, both for `reverse=False` and for `reverse=True`.
-/

/-- Whitespace characters stripped by Python's `str.strip()` (ASCII range). -/
def isWs (c : Char) : Bool :=
  c.toNat = 32 || c.toNat = 9 || c.toNat = 10 || c.toNat = 13 || c.toNat = 11 || c.toNat = 12

/-- ASCII decimal digit test, as Python's `int()` accepts. -/
def isDigitCh (c : Char) : Bool :=
  48 ≤ c.toNat && c.toNat ≤ 57

/-- Numeric value of an ASCII digit character. -/
def digitVal (c : Char) : Nat := c.toNat - 48

/-- Strip leading and trailing whitespace from a character list
(Python `str.strip()`). -/
def stripChars (l : List Char) : List Char :=
  ((l.dropWhile isWs).reverse.dropWhile isWs).reverse

/-- Python `str.strip()`. -/
def pyStrip (s : String) : String := String.mk (stripChars s.toList)

/-- Python `str.lower()` (ASCII letters). -/
def pyLower (s : String) : String := String.mk (s.toList.map Char.toLower)

/-- Split a character list at every occurrence of `sep`
(Python `str.split(sep)`, which never drops empty parts). -/
def splitCharAux (sep : Char) : List Char → List (List Char)
  | [] => [[]]
  | c :: cs =>
    if c = sep then [] :: splitCharAux sep cs
    else
      match splitCharAux sep cs with
      | [] => [[c]]
      | p :: ps => (c :: p) :: ps

/-- Python `s.split(sep)` for a one-character separator. -/
def pySplit (sep : Char) (s : String) : List String :=
  (splitCharAux sep s.toList).map String.mk

/-- Python `s.split(",")`, as used on each data line by `load_students`. -/
def pySplitComma (s : String) : List String := pySplit ',' s

/-- Does `hay` start with `needle`? -/
def startsWith : List Char → List Char → Bool
  | [], _ => true
  | _ :: _, [] => false
  | a :: as, b :: bs => a == b && startsWith as bs

/-- Contiguous-substring test on character lists (Python `needle in hay`). -/
def containsSub : List Char → List Char → Bool
  | hay, needle =>
    if startsWith needle hay then true
    else
      match hay with
      | [] => false
      | _ :: t => containsSub t needle

/-- Python `needle in hay` on strings. -/
def pyIn (needle hay : String) : Bool := containsSub hay.toList needle.toList

/-- Digit-run parser underlying Python `int()`: consumes decimal digits,
allowing a single underscore between two digits (Python 3.6+). -/
def pyDigitsAux : Nat → List Char → Option Nat
  | acc, [] => some acc
  | acc, c :: cs =>
    if isDigitCh c then pyDigitsAux (10 * acc + digitVal c) cs
    else if c = '_' then
      match cs with
      | [] => none
      | d :: _ => if isDigitCh d then pyDigitsAux acc cs else none
    else none

/-- Parse a non-empty all-digit (with optional grouping underscores) run. -/
def pyParseDigits (l : List Char) : Option Nat :=
  match l with
  | [] => none
  | c :: cs => if isDigitCh c then pyDigitsAux (digitVal c) cs else none

/-- Sign handling of Python `int()` on an already stripped character
list: an optional leading sign followed by digits. -/
def pyIntChars : List Char → Option Int
  | [] => none
  | c :: cs =>
    if c = '+' then (pyParseDigits cs).map (fun n => (n : Int))
    else if c = '-' then (pyParseDigits cs).map (fun n => -(n : Int))
    else (pyParseDigits (c :: cs)).map (fun n => (n : Int))

/-- Python `int(s)` on a string: strip whitespace, optional sign, decimal
digits.  `none` models the `ValueError` raised on anything else. -/
def pyInt (s : String) : Option Int :=
  pyIntChars (stripChars s.toList)

/-- The decimal digit character for `n < 10`. -/
def digitChar (n : Nat) : Char :=
  match n with
  | 0 => '0' | 1 => '1' | 2 => '2' | 3 => '3' | 4 => '4'
  | 5 => '5' | 6 => '6' | 7 => '7' | 8 => '8' | _ => '9'

/-- Decimal digits of a natural number, most significant first, followed
by `acc`.  Structural recursion on a fuel argument (any `fuel > n` is
sufficient, since the number loses a digit on every step) keeps the
definition kernel-reducible. -/
def natReprAux (fuel n : Nat) (acc : List Char) : List Char :=
  match fuel with
  | 0 => acc
  | fuel + 1 =>
    if n < 10 then digitChar n :: acc
    else natReprAux fuel (n / 10) (digitChar (n % 10) :: acc)

/-- Decimal digits of a natural number. -/
def natRepr (n : Nat) : List Char := natReprAux (n + 1) n []

/-- Python `str(i)` for an integer, as produced by the f-string in
`Student.to_line`. -/
def pyStr (i : Int) : String :=
  if i < 0 then String.mk ('-' :: natRepr i.natAbs)
  else String.mk (natRepr i.natAbs)

/-- Exceptions that the modelled code can raise. -/
inductive PyError where
  | valueError
  | indexError
deriving DecidableEq

/-- The record type of the source's `Student` class: `sid`, `name`, the
list of three coursework marks, and the exam mark. -/
structure Student where
  sid : String
  name : String
  coursework : List Int
  exam : Int
deriving DecidableEq

/-- The source's `Student.__init__`: strips `sid` and `name`, converts the
four mark fields with `int(...)`; a conversion failure raises
`ValueError`. -/
def Student.init (sid name c1 c2 c3 exam : String) : Except PyError Student :=
  match pyInt c1, pyInt c2, pyInt c3, pyInt exam with
  | some a, some b, some c, some e =>
    .ok { sid := pyStrip sid, name := pyStrip name, coursework := [a, b, c], exam := e }
  | _, _, _, _ => .error .valueError

/-- The source's `Student.coursework_total` property. -/
def Student.coursework_total (s : Student) : Int := s.coursework.sum

/-- The source's `Student.total` property (overall total). -/
def Student.total (s : Student) : Int := s.coursework_total + s.exam

/-- The source's `POTENTIAL_MAX = 160.0` constant. -/
def POTENTIAL_MAX : ℚ := 160

/-- The source's `Student.percentage` property:
`(self.total / POTENTIAL_MAX) * 100`. -/
def Student.percentage (s : Student) : ℚ := ((s.total : ℚ) / POTENTIAL_MAX) * 100

/-- The grade thresholds of the source's `Student.grade` property, as a
function of the percentage. -/
def gradeOfPercentage (p : ℚ) : String :=
  if p ≥ 70 then "A"
  else if p ≥ 60 then "B"
  else if p ≥ 50 then "C"
  else if p ≥ 40 then "D"
  else "F"

/-- The source's `Student.grade` property. -/
def Student.grade (s : Student) : String := gradeOfPercentage s.percentage

/-- The source's `Student.to_line`: the CSV line
`f"{sid},{name},{c1},{c2},{c3},{exam}\n"`. -/
def Student.to_line (s : Student) : String :=
  s.sid ++ "," ++ s.name ++ "," ++ pyStr (s.coursework.getD 0 0) ++ "," ++
    pyStr (s.coursework.getD 1 0) ++ "," ++ pyStr (s.coursework.getD 2 0) ++ "," ++
    pyStr s.exam ++ "\n"

/-- Parsing one serialized line back into a record, exactly as the body of
the `load_students` loop does: split on commas, strip every part, and,
when there are exactly six fields, construct a `Student` from them. -/
def parseLine (line : String) : Option Student :=
  let parts := (pySplitComma line).map pyStrip
  if parts.length = 6 then
    (Student.init (parts.getD 0 "") (parts.getD 1 "") (parts.getD 2 "")
      (parts.getD 3 "") (parts.getD 4 "") (parts.getD 5 "")).toOption
  else none

/-- The `for line in lines` loop of `load_students`: lines with exactly six
comma-separated fields are turned into records (a failing construction
raises), all other lines are skipped. -/
def parseRecords : List String → Except PyError (List Student)
  | [] => .ok []
  | line :: rest =>
    let parts := (pySplitComma line).map pyStrip
    if parts.length = 6 then
      match Student.init (parts.getD 0 "") (parts.getD 1 "") (parts.getD 2 "")
          (parts.getD 3 "") (parts.getD 4 "") (parts.getD 5 "") with
      | .ok s => (parseRecords rest).map (fun tail => s :: tail)
      | .error e => .error e
    else parseRecords rest

/-- The body of `load_students` after reading the file: on the list of
stripped non-empty lines, `int(lines[0])` is attempted — on an empty list
this raises `IndexError` (which the source's `except ValueError` does not
catch); if the first line parses as an integer it is dropped as the count
header; then the record loop runs. -/
def loadStudentsFromLines (lines : List String) : Except PyError (List Student) :=
  match lines with
  | [] => .error .indexError
  | first :: rest =>
    match pyInt first with
    | some _ => parseRecords rest
    | none => parseRecords (first :: rest)

/-- The line extraction of `load_students`:
`[line.strip() for line in f if line.strip()]`. -/
def linesOf (content : String) : List String :=
  ((pySplit '\n' content).map pyStrip).filter (fun l => l != "")

/-- The source's `load_students` on the text content of an existing file. -/
def load_students (content : String) : Except PyError (List Student) :=
  loadStudentsFromLines (linesOf content)

/-- The search predicate of `_find_student` for an already processed
query `q`: `s.sid.lower() == q or q in s.name.lower()`. -/
def matchesQuery (q : String) (s : Student) : Bool :=
  pyLower s.sid == q || pyIn q (pyLower s.name)

/-- The source's `_find_student`: strip and lowercase the query, then
return the first student whose id matches exactly (case-insensitively)
or whose lowercased name contains the query. -/
def find_student (students : List Student) (query : String) : Option Student :=
  students.find? (matchesQuery (pyLower (pyStrip query)))

/-- The list update performed by `delete_record`:
`[s for s in self.students if s.sid != student.sid]`. -/
def delete_record (students : List Student) (sid : String) : List Student :=
  students.filter (fun s => s.sid != sid)

/-- Ascending comparison used by `sort_records` (key `s.total`). -/
def byTotalLE (a b : Student) : Prop := a.total ≤ b.total

/-- Descending comparison used by `sort_records` with `reverse=True`. -/
def byTotalGE (a b : Student) : Prop := b.total ≤ a.total

/-- Strict descending comparison, used to state uniqueness of the
descending order when totals are pairwise distinct. -/
def byTotalGT (a b : Student) : Prop := b.total < a.total

instance : DecidableRel byTotalLE :=
  fun a b => inferInstanceAs (Decidable (a.total ≤ b.total))

instance : DecidableRel byTotalGE :=
  fun a b => inferInstanceAs (Decidable (b.total ≤ a.total))

instance : IsTotal Student byTotalLE :=
  ⟨fun a b => Int.le_total a.total b.total⟩

instance : IsTrans Student byTotalLE :=
  ⟨fun _ _ _ h1 h2 => le_trans h1 h2⟩

instance : IsTotal Student byTotalGE :=
  ⟨fun a b => Int.le_total b.total a.total⟩

instance : IsTrans Student byTotalGE :=
  ⟨fun _ _ _ h1 h2 => le_trans h2 h1⟩

instance : IsAntisymm Student byTotalGT :=
  ⟨fun _ _ h1 h2 => absurd (lt_trans h1 h2) (lt_irrefl _)⟩

/-- The source's `sort_records` core:
`self.students.sort(key=lambda s: s.total, reverse=reverse)`.
CPython's sort is stable, and the unique stable result coincides with
insertion sort under the corresponding non-strict relation. -/
def sort_records (reverse : Bool) (students : List Student) : List Student :=
  if reverse then List.insertionSort byTotalGE students
  else List.insertionSort byTotalLE students

/-- The invariant `Student.__init__` establishes: id and name are stored
stripped, and there are exactly three coursework marks. -/
def Student.wellFormed (s : Student) : Prop :=
  pyStrip s.sid = s.sid ∧ pyStrip s.name = s.name ∧ s.coursework.length = 3

/-- The comma-separated, stripped fields of one line:
`[p.strip() for p in line.split(",")]`. -/
def lineFields (line : String) : List String := (pySplitComma line).map pyStrip

/-- Record construction from the (exactly six) fields of a line,
`Student(sid, name, c1, c2, c3, exam)`. -/
def initOfFields (parts : List String) : Except PyError Student :=
  Student.init (parts.getD 0 "") (parts.getD 1 "") (parts.getD 2 "") (parts.getD 3 "")
    (parts.getD 4 "") (parts.getD 5 "")

/-! ### Helper lemmas: characters, stripping, splitting -/

theorem toList_mk (l : List Char) : (String.mk l).toList = l := rfl

theorem mk_toList (s : String) : String.mk s.toList = s := rfl

theorem mem_dropWhile_of_mem {p : Char → Bool} {c : Char} :
    ∀ {l : List Char}, c ∈ l → p c = false → c ∈ l.dropWhile p
  | [], h, _ => absurd h (List.not_mem_nil c)
  | d :: t, h, hc => by
    by_cases hd : p d = true
    · rw [List.dropWhile_cons, if_pos hd]
      rcases List.mem_cons.mp h with h1 | h2
      · subst h1; rw [hd] at hc; cases hc
      · exact mem_dropWhile_of_mem h2 hc
    · rw [List.dropWhile_cons, if_neg hd]
      exact h

theorem dropWhile_eq_self_of_all {p : Char → Bool} :
    ∀ {l : List Char}, (∀ c ∈ l, p c = false) → l.dropWhile p = l
  | [], _ => rfl
  | d :: t, h => by
    rw [List.dropWhile_cons, if_neg (by rw [h d (List.mem_cons_self d t)]; simp)]

theorem mem_stripChars {c : Char} {l : List Char} (h : c ∈ l) (hc : isWs c = false) :
    c ∈ stripChars l := by
  unfold stripChars
  rw [List.mem_reverse]
  exact mem_dropWhile_of_mem (by rw [List.mem_reverse]; exact mem_dropWhile_of_mem h hc) hc

theorem stripChars_eq_self_of_all {l : List Char} (h : ∀ c ∈ l, isWs c = false) :
    stripChars l = l := by
  unfold stripChars
  rw [dropWhile_eq_self_of_all h,
    dropWhile_eq_self_of_all (fun c hc => h c (List.mem_reverse.mp hc)), List.reverse_reverse]

theorem stripChars_append_newline {l : List Char} (h : ∀ c ∈ l, isWs c = false) :
    stripChars (l ++ ['\n']) = l := by
  cases l with
  | nil => rfl
  | cons c t =>
    unfold stripChars
    have hc : isWs c = false := h c (List.mem_cons_self c t)
    rw [List.cons_append, List.dropWhile_cons, if_neg (by rw [hc]; simp)]
    rw [List.reverse_cons, List.reverse_append, List.reverse_cons]
    show (List.dropWhile isWs ('\n' :: (t.reverse ++ [c]))).reverse = c :: t
    rw [List.dropWhile_cons, if_pos (by decide)]
    rw [dropWhile_eq_self_of_all (fun d hd => ?_), List.reverse_append, List.reverse_reverse]
    · rfl
    · rcases List.mem_append.mp hd with h1 | h2
      · exact h d (List.mem_cons_of_mem c (List.mem_reverse.mp h1))
      · rw [List.mem_singleton.mp h2]; exact hc

theorem splitCharAux_of_not_mem {sep : Char} :
    ∀ {l : List Char}, sep ∉ l → splitCharAux sep l = [l]
  | [], _ => rfl
  | c :: t, h => by
    have hc : ¬ c = sep := fun hc => h (hc ▸ List.mem_cons_self c t)
    have ht : sep ∉ t := fun ht => h (List.mem_cons_of_mem c ht)
    unfold splitCharAux
    rw [if_neg hc, splitCharAux_of_not_mem ht]

theorem splitCharAux_append {sep : Char} {l2 : List Char} :
    ∀ {l1 : List Char}, sep ∉ l1 →
      splitCharAux sep (l1 ++ sep :: l2) = l1 :: splitCharAux sep l2
  | [], _ => by
    show splitCharAux sep (sep :: l2) = [] :: splitCharAux sep l2
    rw [splitCharAux, if_pos rfl]
  | c :: t, h => by
    have hc : ¬ c = sep := fun hc => h (hc ▸ List.mem_cons_self c t)
    have ht : sep ∉ t := fun ht => h (List.mem_cons_of_mem c ht)
    show splitCharAux sep (c :: (t ++ sep :: l2)) = (c :: t) :: splitCharAux sep l2
    rw [splitCharAux, if_neg hc, splitCharAux_append ht]

/-! ### Helper lemmas: digits, integer printing and parsing -/

theorem digitChar_val {n : Nat} (h : n < 10) : digitVal (digitChar n) = n := by
  interval_cases n <;> rfl

theorem digitChar_isDigit (n : Nat) : isDigitCh (digitChar n) = true := by
  unfold digitChar
  rcases n with _ | _ | _ | _ | _ | _ | _ | _ | _ | n <;> rfl

theorem isDigitCh_not_ws {c : Char} (h : isDigitCh c = true) : isWs c = false := by
  simp only [isDigitCh, Bool.and_eq_true, decide_eq_true_eq] at h
  simp only [isWs, Bool.or_eq_false_iff, decide_eq_false_iff_not]
  omega

theorem isDigitCh_toNat {c : Char} (h : isDigitCh c = true) :
    48 ≤ c.toNat ∧ c.toNat ≤ 57 := by
  simpa only [isDigitCh, Bool.and_eq_true, decide_eq_true_eq] using h

theorem isDigitCh_ne {c d : Char} (h : isDigitCh c = true) (hd : isDigitCh d = false) :
    c ≠ d := by
  intro hcd
  rw [hcd, hd] at h
  cases h

theorem natReprAux_acc (fuel : Nat) :
    ∀ (n : Nat) (acc : List Char), natReprAux fuel n acc = natReprAux fuel n [] ++ acc := by
  induction fuel with
  | zero => intro n acc; rfl
  | succ fuel ih =>
    intro n acc
    by_cases h : n < 10
    · rw [natReprAux, natReprAux, if_pos h, if_pos h]; rfl
    · rw [natReprAux, natReprAux, if_neg h, if_neg h, ih (n / 10), ih (n / 10) [_]]
      simp

theorem natReprAux_spec (fuel : Nat) :
    ∀ n : Nat, n < fuel →
      (∀ c ∈ natReprAux fuel n [], isDigitCh c = true) ∧ natReprAux fuel n [] ≠ [] ∧
        (natReprAux fuel n []).foldl (fun a c => 10 * a + digitVal c) 0 = n := by
  induction fuel with
  | zero => intro n h; omega
  | succ fuel ih =>
    intro n hn
    by_cases h : n < 10
    · rw [natReprAux, if_pos h]
      refine ⟨?_, by simp, ?_⟩
      · intro c hc
        rw [List.mem_singleton.mp hc]
        exact digitChar_isDigit n
      · simp [digitChar_val h]
    · rw [natReprAux, if_neg h, natReprAux_acc]
      have hdiv : n / 10 < fuel := by omega
      obtain ⟨hd, hne, hv⟩ := ih (n / 10) hdiv
      refine ⟨?_, by simp, ?_⟩
      · intro c hc
        rcases List.mem_append.mp hc with h1 | h2
        · exact hd c h1
        · rw [List.mem_singleton.mp h2]
          exact digitChar_isDigit (n % 10)
      · rw [List.foldl_append, hv]
        simp only [List.foldl_cons, List.foldl_nil]
        rw [digitChar_val (Nat.mod_lt n (by omega))]
        omega

theorem natRepr_digits (n : Nat) : ∀ c ∈ natRepr n, isDigitCh c = true :=
  (natReprAux_spec (n + 1) n (by omega)).1

theorem natRepr_ne_nil (n : Nat) : natRepr n ≠ [] :=
  (natReprAux_spec (n + 1) n (by omega)).2.1

theorem natRepr_foldl (n : Nat) :
    (natRepr n).foldl (fun a c => 10 * a + digitVal c) 0 = n :=
  (natReprAux_spec (n + 1) n (by omega)).2.2

theorem pyDigitsAux_cons (acc : Nat) (c : Char) (cs : List Char) :
    pyDigitsAux acc (c :: cs) =
      if isDigitCh c then pyDigitsAux (10 * acc + digitVal c) cs
      else if c = '_' then
        match cs with
        | [] => none
        | d :: _ => if isDigitCh d then pyDigitsAux acc cs else none
      else none := rfl

theorem pyParseDigits_cons (c : Char) (cs : List Char) :
    pyParseDigits (c :: cs) =
      if isDigitCh c then pyDigitsAux (digitVal c) cs else none := rfl

theorem pyDigitsAux_of_digits :
    ∀ (l : List Char) (acc : Nat), (∀ c ∈ l, isDigitCh c = true) →
      pyDigitsAux acc l = some (l.foldl (fun a c => 10 * a + digitVal c) acc)
  | [], acc, _ => rfl
  | c :: cs, acc, h => by
    rw [pyDigitsAux_cons, if_pos (h c (List.mem_cons_self c cs))]
    rw [pyDigitsAux_of_digits cs _ (fun d hd => h d (List.mem_cons_of_mem c hd))]
    rfl

theorem pyParseDigits_natRepr (n : Nat) : pyParseDigits (natRepr n) = some n := by
  obtain ⟨c, cs, hcons⟩ : ∃ c cs, natRepr n = c :: cs := by
    cases hh : natRepr n with
    | nil => exact absurd hh (natRepr_ne_nil n)
    | cons c cs => exact ⟨c, cs, rfl⟩
  have hdig := natRepr_digits n
  rw [hcons] at hdig ⊢
  rw [pyParseDigits_cons, if_pos (hdig c (List.mem_cons_self c cs))]
  rw [pyDigitsAux_of_digits cs _ (fun d hd => hdig d (List.mem_cons_of_mem c hd))]
  have hfold := natRepr_foldl n
  rw [hcons] at hfold
  simp only [List.foldl_cons] at hfold
  have h0 : 10 * 0 + digitVal c = digitVal c := by omega
  rw [h0] at hfold
  rw [hfold]

theorem pyStr_chars {i : Int} : ∀ c ∈ (pyStr i).toList, isDigitCh c = true ∨ c = '-' := by
  intro c hc
  unfold pyStr at hc
  by_cases h : i < 0
  · rw [if_pos h, toList_mk] at hc
    rcases List.mem_cons.mp hc with h1 | h2
    · exact Or.inr h1
    · exact Or.inl (natRepr_digits _ c h2)
  · rw [if_neg h, toList_mk] at hc
    exact Or.inl (natRepr_digits _ c hc)

theorem pyStr_not_ws {i : Int} : ∀ c ∈ (pyStr i).toList, isWs c = false := by
  intro c hc
  rcases pyStr_chars c hc with h | h
  · exact isDigitCh_not_ws h
  · rw [h]; rfl

theorem pyStr_no_comma {i : Int} : ',' ∉ (pyStr i).toList := by
  intro hc
  rcases pyStr_chars ',' hc with h | h
  · exact absurd h (by decide)
  · cases h

theorem pyIntChars_cons (c : Char) (cs : List Char) :
    pyIntChars (c :: cs) =
      if c = '+' then (pyParseDigits cs).map (fun n => (n : Int))
      else if c = '-' then (pyParseDigits cs).map (fun n => -(n : Int))
      else (pyParseDigits (c :: cs)).map (fun n => (n : Int)) := rfl

theorem pyInt_pyStr (i : Int) : pyInt (pyStr i) = some i := by
  unfold pyInt
  rw [stripChars_eq_self_of_all pyStr_not_ws]
  by_cases h : i < 0
  · have hl : (pyStr i).toList = '-' :: natRepr i.natAbs := by
      unfold pyStr
      rw [if_pos h, toList_mk]
    rw [hl, pyIntChars_cons]
    rw [if_neg (by decide), if_pos rfl, pyParseDigits_natRepr]
    show some (-(i.natAbs : Int)) = some i
    congr 1
    omega
  · have hl : (pyStr i).toList = natRepr i.natAbs := by
      unfold pyStr
      rw [if_neg h, toList_mk]
    rw [hl]
    obtain ⟨c, cs, hcons⟩ : ∃ c cs, natRepr i.natAbs = c :: cs := by
      cases hh : natRepr i.natAbs with
      | nil => exact absurd hh (natRepr_ne_nil _)
      | cons c cs => exact ⟨c, cs, rfl⟩
    have hdig : isDigitCh c = true := by
      apply natRepr_digits i.natAbs
      rw [hcons]
      exact List.mem_cons_self c cs
    rw [hcons, pyIntChars_cons]
    rw [if_neg (isDigitCh_ne hdig (by decide) · ), if_neg (isDigitCh_ne hdig (by decide) · )]
    rw [← hcons, pyParseDigits_natRepr]
    show some ((i.natAbs : Int)) = some i
    congr 1
    omega

/-! ### Helper lemmas: successful integer parses contain no comma -/

theorem pyDigitsAux_some_chars :
    ∀ (l : List Char) (acc v : Nat), pyDigitsAux acc l = some v →
      ∀ c ∈ l, isDigitCh c = true ∨ c = '_'
  | [], _, _, _, _, hc => absurd hc (List.not_mem_nil _)
  | c :: cs, acc, v, h, d, hd => by
    rw [pyDigitsAux_cons] at h
    by_cases hc : isDigitCh c = true
    · rw [if_pos hc] at h
      rcases List.mem_cons.mp hd with h1 | h2
      · exact Or.inl (h1 ▸ hc)
      · exact pyDigitsAux_some_chars cs _ v h d h2
    · rw [if_neg hc] at h
      by_cases hu : c = '_'
      · rw [if_pos hu] at h
        cases cs with
        | nil => cases h
        | cons e es =>
          have h2 : (if isDigitCh e = true then pyDigitsAux acc (e :: es) else none) =
              some v := h
          by_cases he : isDigitCh e = true
          · rw [if_pos he] at h2
            rcases List.mem_cons.mp hd with h1 | h2m
            · exact Or.inr (h1 ▸ hu)
            · exact pyDigitsAux_some_chars (e :: es) _ v h2 d h2m
          · rw [if_neg he] at h2
            cases h2
      · rw [if_neg hu] at h
        cases h

theorem pyParseDigits_some_chars (l : List Char) (v : Nat) (h : pyParseDigits l = some v) :
    ∀ c ∈ l, isDigitCh c = true ∨ c = '_' := by
  cases l with
  | nil => cases h
  | cons c cs =>
    rw [pyParseDigits_cons] at h
    by_cases hc : isDigitCh c = true
    · rw [if_pos hc] at h
      intro d hd
      rcases List.mem_cons.mp hd with h1 | h2
      · exact Or.inl (h1 ▸ hc)
      · exact pyDigitsAux_some_chars cs _ v h d h2
    · rw [if_neg hc] at h
      cases h

theorem pyIntChars_some_chars (l : List Char) (m : Int) (h : pyIntChars l = some m) :
    ∀ c ∈ l, isDigitCh c = true ∨ c = '_' ∨ c = '+' ∨ c = '-' := by
  cases l with
  | nil => cases h
  | cons c cs =>
    rw [pyIntChars_cons] at h
    intro d hd
    by_cases hp : c = '+'
    · rw [if_pos hp] at h
      cases hv : pyParseDigits cs with
      | none => rw [hv] at h; cases h
      | some v =>
        rcases List.mem_cons.mp hd with h1 | h2
        · exact Or.inr (Or.inr (Or.inl (h1 ▸ hp)))
        · rcases pyParseDigits_some_chars cs v hv d h2 with hh | hh
          · exact Or.inl hh
          · exact Or.inr (Or.inl hh)
    · rw [if_neg hp] at h
      by_cases hm : c = '-'
      · rw [if_pos hm] at h
        cases hv : pyParseDigits cs with
        | none => rw [hv] at h; cases h
        | some v =>
          rcases List.mem_cons.mp hd with h1 | h2
          · exact Or.inr (Or.inr (Or.inr (h1 ▸ hm)))
          · rcases pyParseDigits_some_chars cs v hv d h2 with hh | hh
            · exact Or.inl hh
            · exact Or.inr (Or.inl hh)
      · rw [if_neg hm] at h
        cases hv : pyParseDigits (c :: cs) with
        | none => rw [hv] at h; cases h
        | some v =>
          rcases pyParseDigits_some_chars (c :: cs) v hv d hd with hh | hh
          · exact Or.inl hh
          · exact Or.inr (Or.inl hh)

theorem pyInt_no_comma {s : String} {m : Int} (h : pyInt s = some m) : ',' ∉ s.toList := by
  intro hc
  have hmem : ',' ∈ stripChars s.toList := mem_stripChars hc (by decide)
  rcases pyIntChars_some_chars _ m h ',' hmem with hh | hh | hh | hh
  · exact absurd hh (by decide)
  · cases hh
  · cases hh
  · cases hh

theorem pyInt_split_comma {s : String} {m : Int} (h : pyInt s = some m) :
    pySplitComma s = [s] := by
  unfold pySplitComma pySplit
  rw [splitCharAux_of_not_mem (pyInt_no_comma h)]
  rw [List.map_singleton, mk_toList]

/-! ### Helper lemmas: the load loop -/

theorem parseRecords_cons (line : String) (rest : List String) :
    parseRecords (line :: rest) =
      if ((pySplitComma line).map pyStrip).length = 6 then
        match Student.init (((pySplitComma line).map pyStrip).getD 0 "")
            (((pySplitComma line).map pyStrip).getD 1 "")
            (((pySplitComma line).map pyStrip).getD 2 "")
            (((pySplitComma line).map pyStrip).getD 3 "")
            (((pySplitComma line).map pyStrip).getD 4 "")
            (((pySplitComma line).map pyStrip).getD 5 "") with
        | .ok s => (parseRecords rest).map (fun tail => s :: tail)
        | .error e => .error e
      else parseRecords rest := rfl

theorem parseRecords_skip {line : String} (rest : List String)
    (h : ((pySplitComma line).map pyStrip).length ≠ 6) :
    parseRecords (line :: rest) = parseRecords rest := by
  rw [parseRecords_cons, if_neg h]

theorem parseRecords_skip_int {line : String} {m : Int} (rest : List String)
    (h : pyInt line = some m) :
    parseRecords (line :: rest) = parseRecords rest := by
  apply parseRecords_skip
  rw [pyInt_split_comma h]
  simp

/-! ### Helper lemmas: stable sorting -/

theorem filter_orderedInsert_pos {α : Type} (r : α → α → Prop) [DecidableRel r]
    (q : α → Bool) (x : α) (hx : q x = true) (hcomp : ∀ y, q y = true → r x y) :
    ∀ l : List α, (List.orderedInsert r x l).filter q = x :: l.filter q
  | [] => by simp [List.orderedInsert, hx]
  | y :: ys => by
    rw [List.orderedInsert]
    by_cases hr : r x y
    · rw [if_pos hr]
      simp [List.filter_cons, hx]
    · rw [if_neg hr]
      have hqy : q y = false := by
        cases hqy : q y
        · rfl
        · exact absurd (hcomp y hqy) hr
      have h1 : List.filter q (y :: List.orderedInsert r x ys) =
          List.filter q (List.orderedInsert r x ys) := by
        simp [List.filter_cons, hqy]
      have h2 : List.filter q (y :: ys) = List.filter q ys := by
        simp [List.filter_cons, hqy]
      rw [h1, h2]
      exact filter_orderedInsert_pos r q x hx hcomp ys

theorem filter_orderedInsert_neg {α : Type} (r : α → α → Prop) [DecidableRel r]
    (q : α → Bool) (x : α) (hx : q x = false) :
    ∀ l : List α, (List.orderedInsert r x l).filter q = l.filter q
  | [] => by simp [List.orderedInsert, hx]
  | y :: ys => by
    rw [List.orderedInsert]
    by_cases hr : r x y
    · rw [if_pos hr]
      simp [List.filter_cons, hx]
    · rw [if_neg hr]
      simp only [List.filter_cons]
      rw [filter_orderedInsert_neg r q x hx ys]

theorem filter_insertionSort {α : Type} (r : α → α → Prop) [DecidableRel r]
    (q : α → Bool) (hcomp : ∀ x y, q x = true → q y = true → r x y) :
    ∀ l : List α, (List.insertionSort r l).filter q = l.filter q
  | [] => rfl
  | x :: xs => by
    rw [List.insertionSort]
    by_cases hx : q x = true
    · rw [filter_orderedInsert_pos r q x hx (fun y hy => hcomp x y hx hy),
        filter_insertionSort r q hcomp xs]
      simp [List.filter_cons, hx]
    · have hx0 : q x = false := by
        cases hqx : q x
        · rfl
        · exact absurd hqx hx
      rw [filter_orderedInsert_neg r q x hx0, filter_insertionSort r q hcomp xs]
      simp [List.filter_cons, hx0]

theorem totalNe_symm : ∀ {x y : Student}, x.total ≠ y.total → y.total ≠ x.total :=
  fun h => h.symm

theorem sorted_GT_of_GE_distinct {l : List Student}
    (hs : List.Sorted byTotalGE l) (hd : l.Pairwise (fun a b => a.total ≠ b.total)) :
    List.Sorted byTotalGT l :=
  (hs.and hd).imp (fun h => lt_of_le_of_ne h.1 (Ne.symm h.2))

theorem insertionSort_desc_eq_reverse {l : List Student}
    (hd : l.Pairwise (fun a b => a.total ≠ b.total)) (hs : List.Sorted byTotalLE l) :
    List.insertionSort byTotalGE l = l.reverse := by
  have hperm : List.insertionSort byTotalGE l |>.Perm l := List.perm_insertionSort _ _
  have hsGE : List.Sorted byTotalGE (List.insertionSort byTotalGE l) :=
    List.sorted_insertionSort _ _
  have hdn : (List.insertionSort byTotalGE l).Pairwise (fun a b => a.total ≠ b.total) :=
    (hperm.pairwise_iff (fun h => totalNe_symm h)).mpr hd
  have hn : List.Sorted byTotalGT (List.insertionSort byTotalGE l) :=
    sorted_GT_of_GE_distinct hsGE hdn
  have hrev : List.Sorted byTotalGT l.reverse := by
    rw [List.Sorted, List.pairwise_reverse]
    exact (hs.and hd).imp (fun h => lt_of_le_of_ne h.1 h.2)
  exact List.eq_of_perm_of_sorted (hperm.trans (l.reverse_perm).symm) hn hrev

/-! ### Helper lemmas: substring search and first match -/

theorem containsSub_eq (hay needle : List Char) :
    containsSub hay needle =
      if startsWith needle hay then true
      else
        match hay with
        | [] => false
        | _ :: t => containsSub t needle := by
  cases hay with
  | nil => rfl
  | cons c t => rfl

theorem startsWith_iff : ∀ (needle hay : List Char),
    startsWith needle hay = true ↔ ∃ rest, hay = needle ++ rest
  | [], hay => by
    simp [startsWith]
  | a :: as, [] => by
    simp [startsWith]
  | a :: as, b :: bs => by
    show (a == b && startsWith as bs) = true ↔ _
    rw [Bool.and_eq_true, beq_iff_eq, startsWith_iff as bs]
    constructor
    · rintro ⟨rfl, rest, rfl⟩
      exact ⟨rest, rfl⟩
    · rintro ⟨rest, heq⟩
      rw [List.cons_append] at heq
      injection heq with h1 h2
      exact ⟨h1.symm, rest, h2⟩

theorem containsSub_iff : ∀ (hay needle : List Char),
    containsSub hay needle = true ↔ ∃ pre post, hay = pre ++ needle ++ post
  | [], needle => by
    rw [containsSub_eq]
    by_cases hsw : startsWith needle [] = true
    · rw [if_pos hsw]
      obtain ⟨rest, hr⟩ := (startsWith_iff needle []).mp hsw
      have hn : needle = [] := by
        cases needle with
        | nil => rfl
        | cons c cs => simp at hr
      subst hn
      simp
    · rw [if_neg hsw]
      have hn : needle ≠ [] := by
        intro he
        subst he
        exact hsw rfl
      simp only [Bool.false_eq_true, false_iff]
      rintro ⟨pre, post, heq⟩
      have h1 := List.append_eq_nil.mp heq.symm
      have h2 := List.append_eq_nil.mp h1.1
      exact hn h2.2
  | c :: t, needle => by
    rw [containsSub_eq]
    by_cases hsw : startsWith needle (c :: t) = true
    · rw [if_pos hsw]
      obtain ⟨rest, hr⟩ := (startsWith_iff needle (c :: t)).mp hsw
      simp only [true_iff]
      exact ⟨[], rest, by rw [hr]; rfl⟩
    · rw [if_neg hsw]
      show containsSub t needle = true ↔ _
      rw [containsSub_iff t needle]
      constructor
      · rintro ⟨pre, post, rfl⟩
        exact ⟨c :: pre, post, rfl⟩
      · rintro ⟨pre, post, heq⟩
        cases pre with
        | nil =>
          exfalso
          apply hsw
          rw [List.nil_append] at heq
          exact (startsWith_iff needle (c :: t)).mpr ⟨post, heq⟩
        | cons d pre =>
          rw [List.cons_append, List.cons_append] at heq
          injection heq with h1 h2
          exact ⟨pre, post, h2⟩

theorem find?_first {α : Type} (p : α → Bool) :
    ∀ (l : List α) (x : α), l.find? p = some x →
      p x = true ∧ ∃ pre post, l = pre ++ x :: post ∧ ∀ t ∈ pre, p t = false
  | [], x, h => by cases h
  | y :: ys, x, h => by
    by_cases hy : p y = true
    · rw [List.find?_cons_of_pos _ hy] at h
      injection h with h1
      subst h1
      exact ⟨hy, [], ys, rfl, by simp⟩
    · rw [List.find?_cons_of_neg _ hy] at h
      obtain ⟨hp, pre, post, heq, hpre⟩ := find?_first p ys x h
      have hy0 : p y = false := by
        cases hqy : p y
        · rfl
        · exact absurd hqy hy
      refine ⟨hp, y :: pre, post, by rw [heq]; rfl, ?_⟩
      intro t ht
      rcases List.mem_cons.mp ht with h1 | h2
      · rw [h1]; exact hy0
      · exact hpre t h2

/-! ### Helper lemmas: serialization round trip -/

theorem pyStrip_pyStr (i : Int) : pyStrip (pyStr i) = pyStr i := by
  unfold pyStrip
  rw [stripChars_eq_self_of_all pyStr_not_ws, mk_toList]

theorem pyStrip_pyStr_newline (i : Int) :
    pyStrip (String.mk ((pyStr i).toList ++ ['\n'])) = pyStr i := by
  unfold pyStrip
  rw [toList_mk, stripChars_append_newline pyStr_not_ws, mk_toList]

theorem Student.init_eval {sid name c1 c2 c3 exam : String} {a b c e : Int}
    (h1 : pyInt c1 = some a) (h2 : pyInt c2 = some b) (h3 : pyInt c3 = some c)
    (h4 : pyInt exam = some e) :
    Student.init sid name c1 c2 c3 exam =
      .ok { sid := pyStrip sid, name := pyStrip name, coursework := [a, b, c], exam := e } := by
  unfold Student.init
  rw [h1, h2, h3, h4]

theorem to_line_toList {s : Student} {a b c : Int} (hcw : s.coursework = [a, b, c]) :
    (Student.to_line s).toList =
      s.sid.toList ++ ',' :: (s.name.toList ++ ',' :: ((pyStr a).toList ++ ',' ::
        ((pyStr b).toList ++ ',' :: ((pyStr c).toList ++ ',' ::
          ((pyStr s.exam).toList ++ ['\n']))))) := by
  have hcomma : (",").data = [','] := rfl
  have hnl : ("\n").data = ['\n'] := rfl
  simp only [Student.to_line, hcw, List.getD_cons_zero, List.getD_cons_succ, String.toList]
  simp only [String.data_append, hcomma, hnl]
  simp [List.append_assoc]

theorem to_line_parts {s : Student} {a b c : Int} (hcw : s.coursework = [a, b, c])
    (hwf : s.wellFormed) (hsid : ',' ∉ s.sid.toList) (hname : ',' ∉ s.name.toList) :
    (pySplitComma (Student.to_line s)).map pyStrip =
      [s.sid, s.name, pyStr a, pyStr b, pyStr c, pyStr s.exam] := by
  have hlast : ',' ∉ (pyStr s.exam).toList ++ ['\n'] := by
    intro hc
    rcases List.mem_append.mp hc with h1 | h2
    · exact pyStr_no_comma h1
    · rw [List.mem_singleton] at h2
      cases h2
  have hsplit : splitCharAux ',' ((Student.to_line s).toList) =
      [s.sid.toList, s.name.toList, (pyStr a).toList, (pyStr b).toList, (pyStr c).toList,
        (pyStr s.exam).toList ++ ['\n']] := by
    rw [to_line_toList hcw, splitCharAux_append hsid, splitCharAux_append hname,
      splitCharAux_append pyStr_no_comma, splitCharAux_append pyStr_no_comma,
      splitCharAux_append pyStr_no_comma, splitCharAux_of_not_mem hlast]
  unfold pySplitComma pySplit
  rw [hsplit]
  simp only [List.map_cons, List.map_nil, mk_toList]
  rw [hwf.1, hwf.2.1, pyStrip_pyStr, pyStrip_pyStr, pyStrip_pyStr, pyStrip_pyStr_newline]

/-! ### Helper lemmas: load loop error propagation and header handling -/

theorem parseRecords_cons_eq (line : String) (rest : List String) :
    parseRecords (line :: rest) =
      if (lineFields line).length = 6 then
        match initOfFields (lineFields line) with
        | .ok s => (parseRecords rest).map (fun tail => s :: tail)
        | .error e => .error e
      else parseRecords rest := rfl

theorem parseRecords_error_of_bad_line :
    ∀ lines : List String,
      (∃ line ∈ lines, (lineFields line).length = 6 ∧
        ∃ e, initOfFields (lineFields line) = Except.error e) →
      ∃ e, parseRecords lines = Except.error e
  | [], h => by
    obtain ⟨line, hmem, _⟩ := h
    exact absurd hmem (List.not_mem_nil line)
  | line :: rest, h => by
    rw [parseRecords_cons_eq]
    by_cases h6 : (lineFields line).length = 6
    · rw [if_pos h6]
      cases hinit : initOfFields (lineFields line) with
      | error e => exact ⟨e, rfl⟩
      | ok s =>
        obtain ⟨bad, hmem, hbad6, e, hbade⟩ := h
        have hbadrest : bad ∈ rest := by
          rcases List.mem_cons.mp hmem with h1 | h2
          · subst h1
            rw [hinit] at hbade
            cases hbade
          · exact h2
        obtain ⟨e2, he2⟩ :=
          parseRecords_error_of_bad_line rest ⟨bad, hbadrest, hbad6, e, hbade⟩
        rw [he2]
        exact ⟨e2, rfl⟩
    · rw [if_neg h6]
      obtain ⟨bad, hmem, hbad6, e, hbade⟩ := h
      have hbadrest : bad ∈ rest := by
        rcases List.mem_cons.mp hmem with h1 | h2
        · subst h1
          exact absurd hbad6 h6
        · exact h2
      exact parseRecords_error_of_bad_line rest ⟨bad, hbadrest, hbad6, e, hbade⟩

theorem sixFields_no_pyInt {line : String} (h6 : (lineFields line).length = 6) :
    pyInt line = none := by
  cases hp : pyInt line with
  | none => rfl
  | some m =>
    exfalso
    have h1 : lineFields line = [pyStrip line] := by
      unfold lineFields
      rw [pyInt_split_comma hp, List.map_singleton]
    rw [h1] at h6
    cases h6

theorem loadStudentsFromLines_cons (first : String) (rest : List String) :
    loadStudentsFromLines (first :: rest) =
      match pyInt first with
      | some _ => parseRecords rest
      | none => parseRecords (first :: rest) := rfl

/-! ### Helper lemmas: percentages and grades -/

theorem percentage_eq (s : Student) :
    s.percentage = ((s.coursework.sum + s.exam : Int) : ℚ) / 160 * 100 := rfl

theorem percentage_le_iff (s : Student) {q : ℚ} {n : Int} (hqn : q * 160 = (n : ℚ) * 100) :
    q ≤ s.percentage ↔ n ≤ s.total := by
  unfold Student.percentage POTENTIAL_MAX
  rw [div_mul_eq_mul_div, le_div_iff₀ (by norm_num : (0 : ℚ) < 160)]
  constructor
  · intro h
    have h2 : (n : ℚ) ≤ (s.total : ℚ) := by linarith
    exact_mod_cast h2
  · intro h
    have h2 : (n : ℚ) ≤ (s.total : ℚ) := by exact_mod_cast h
    linarith

theorem gradeOfPercentage_spec (p : ℚ) :
    (gradeOfPercentage p = "A" ↔ 70 ≤ p) ∧
    (gradeOfPercentage p = "B" ↔ 60 ≤ p ∧ p < 70) ∧
    (gradeOfPercentage p = "C" ↔ 50 ≤ p ∧ p < 60) ∧
    (gradeOfPercentage p = "D" ↔ 40 ≤ p ∧ p < 50) ∧
    (gradeOfPercentage p = "F" ↔ p < 40) := by
  unfold gradeOfPercentage
  split_ifs with h1 h2 h3 h4 <;>
    refine ⟨?_, ?_, ?_, ?_, ?_⟩ <;>
    constructor <;>
    intro hh <;>
    first
      | assumption
      | rfl
      | exact absurd hh (by decide)
      | (constructor <;> linarith)
      | linarith

/-! ### Claim theorems -/

/-- Claim C1, counterexample: the claim conditions only on the name being
comma-free, but a record whose id contains a comma (which `Student.__init__`
accepts) serializes to a line with seven fields, so parsing it back fails. -/
theorem claim_C1_counterexample :
    Student.init "a,b" "x" "1" "2" "3" "4" =
      Except.ok { sid := "a,b", name := "x", coursework := [1, 2, 3], exam := 4 } ∧
    parseLine (Student.to_line
        { sid := "a,b", name := "x", coursework := [1, 2, 3], exam := 4 }) ≠
      some { sid := "a,b", name := "x", coursework := [1, 2, 3], exam := 4 } := by
  refine ⟨rfl, ?_⟩
  decide

/-- Claim C1, amended: for every record satisfying the construction
invariant (stripped id and name, exactly three coursework marks) whose id
and name both contain no comma, parsing the serialized line of the record
yields the record back: `parse(serialize(record)) == record`. -/
theorem claim_C1 (s : Student) (hwf : s.wellFormed) (hsid : ',' ∉ s.sid.toList)
    (hname : ',' ∉ s.name.toList) : parseLine (Student.to_line s) = some s := by
  obtain ⟨a, b, c, hcw⟩ : ∃ a b c, s.coursework = [a, b, c] := by
    have h3 := hwf.2.2
    cases hcwl : s.coursework with
    | nil =>
      rw [hcwl] at h3; simp only [List.length_nil] at h3; omega
    | cons a t1 =>
      cases t1 with
      | nil =>
        rw [hcwl] at h3; simp only [List.length_cons, List.length_nil] at h3; omega
      | cons b t2 =>
        cases t2 with
        | nil =>
          rw [hcwl] at h3; simp only [List.length_cons, List.length_nil] at h3; omega
        | cons c t3 =>
          cases t3 with
          | nil => exact ⟨a, b, c, rfl⟩
          | cons d t4 =>
            rw [hcwl] at h3
            simp only [List.length_cons] at h3
            omega
  have hparts := to_line_parts hcw hwf hsid hname
  simp only [parseLine, hparts, List.length_cons, List.length_nil,
    List.getD_cons_zero, List.getD_cons_succ, if_pos]
  rw [Student.init_eval (pyInt_pyStr a) (pyInt_pyStr b) (pyInt_pyStr c) (pyInt_pyStr s.exam)]
  rw [hwf.1, hwf.2.1, ← hcw]
  rfl

/-- Claim C1 witness: a concrete comma-free record round-trips. -/
theorem claim_C1_witness :
    parseLine (Student.to_line
        { sid := "S1", name := "Ada Lovelace", coursework := [45, 48, 50], exam := 90 }) =
      some { sid := "S1", name := "Ada Lovelace", coursework := [45, 48, 50], exam := 90 } :=
  claim_C1 _ ⟨by decide, by decide, by decide⟩ (by decide) (by decide)

/-- Claim C2: for every record, the percentage is
(coursework total + exam) / 160 × 100, and the letter grade is determined
from that percentage by exact thresholds (≥70 A, ≥60 B, ≥50 C, ≥40 D,
else F); each threshold comparison is equivalent to an exact integer bound
on the overall total, and at the boundaries a percentage of exactly 70.00
grades "A" while 69.99 grades "B", and analogously at 60, 50 and 40. -/
theorem claim_C2 (s : Student) :
    s.percentage = ((s.coursework_total + s.exam : Int) : ℚ) / 160 * 100 ∧
    (s.grade = "A" ↔ 70 ≤ s.percentage) ∧ (70 ≤ s.percentage ↔ 112 ≤ s.total) ∧
    (s.grade = "B" ↔ 60 ≤ s.percentage ∧ s.percentage < 70) ∧
    (60 ≤ s.percentage ↔ 96 ≤ s.total) ∧
    (s.grade = "C" ↔ 50 ≤ s.percentage ∧ s.percentage < 60) ∧
    (50 ≤ s.percentage ↔ 80 ≤ s.total) ∧
    (s.grade = "D" ↔ 40 ≤ s.percentage ∧ s.percentage < 50) ∧
    (40 ≤ s.percentage ↔ 64 ≤ s.total) ∧
    (s.grade = "F" ↔ s.percentage < 40) ∧
    gradeOfPercentage 70 = "A" ∧ gradeOfPercentage (6999 / 100) = "B" ∧
    gradeOfPercentage 60 = "B" ∧ gradeOfPercentage (5999 / 100) = "C" ∧
    gradeOfPercentage 50 = "C" ∧ gradeOfPercentage (4999 / 100) = "D" ∧
    gradeOfPercentage 40 = "D" ∧ gradeOfPercentage (3999 / 100) = "F" := by
  obtain ⟨hA, hB, hC, hD, hF⟩ := gradeOfPercentage_spec s.percentage
  refine ⟨rfl, hA, percentage_le_iff s (by norm_num), hB,
    percentage_le_iff s (by norm_num), hC, percentage_le_iff s (by norm_num), hD,
    percentage_le_iff s (by norm_num), hF, ?_, ?_, ?_, ?_, ?_, ?_, ?_, ?_⟩ <;>
    norm_num [gradeOfPercentage]

/-- Claim C2 witness: the spec's worked example, a student with marks
10/10/10 and exam 20 (total 50, percentage 31.25) grades "F". -/
theorem claim_C2_witness :
    ({ sid := "S2", name := "Bob", coursework := [10, 10, 10], exam := 20 } : Student).grade
        = "F" ↔
      ({ sid := "S2", name := "Bob", coursework := [10, 10, 10], exam := 20 } : Student).percentage
        < 40 :=
  (claim_C2 { sid := "S2", name := "Bob", coursework := [10, 10, 10], exam := 20 }).2.2.2.2.2.2.2.2.2.1

/-- Claim C3, counterexample: the line "S1,Bob,x,2,3,4" has exactly six
comma-separated fields and a coursework field that is not an integer, and
loading a file with that single line raises (the `ValueError` escapes
`load_students`); the record is not skipped and the load does not
continue. -/
theorem claim_C3_counterexample :
    (lineFields "S1,Bob,x,2,3,4").length = 6 ∧ pyInt "x" = none ∧
    loadStudentsFromLines ["S1,Bob,x,2,3,4"] = Except.error PyError.valueError := by
  refine ⟨by decide, by decide, rfl⟩

/-- Claim C3, amended: when any line of the input splits into exactly six
comma-separated fields but record construction from those fields fails
(a coursework or exam field is not parseable as an integer), the exception
propagates out of load — the loader does not skip the record. -/
theorem claim_C3 (lines : List String)
    (h : ∃ line ∈ lines, (lineFields line).length = 6 ∧
      ∃ e, initOfFields (lineFields line) = Except.error e) :
    ∃ e, loadStudentsFromLines lines = Except.error e := by
  obtain ⟨line, hmem, h6, e, he⟩ := h
  cases lines with
  | nil => exact absurd hmem (List.not_mem_nil line)
  | cons first rest =>
    rw [loadStudentsFromLines_cons]
    cases hp : pyInt first with
    | some m =>
      have hfirst1 : (lineFields first).length = 1 := by
        unfold lineFields
        rw [pyInt_split_comma hp, List.map_singleton]
        rfl
      have hlr : line ∈ rest := by
        rcases List.mem_cons.mp hmem with h1 | h2
        · subst h1
          rw [h6] at hfirst1
          exact absurd hfirst1 (by decide)
        · exact h2
      exact parseRecords_error_of_bad_line rest ⟨line, hlr, h6, e, he⟩
    | none =>
      exact parseRecords_error_of_bad_line (first :: rest) ⟨line, hmem, h6, e, he⟩

/-- Claim C3 witness: a file with a count header and one malformed record
line makes load raise. -/
theorem claim_C3_witness :
    ∃ e, loadStudentsFromLines ["7", "S1,Bob,x,2,3,4"] = Except.error e :=
  claim_C3 _ ⟨"S1,Bob,x,2,3,4", by decide, by decide, PyError.valueError, rfl⟩

/-- Claim C4 (code bug): on an existing file that is empty or contains only
blank lines, the line list is empty, `int(lines[0])` raises `IndexError`,
and the source's `except ValueError` does not catch it, so load crashes
instead of returning a collection. -/
theorem claim_C4 :
    linesOf "" = [] ∧ linesOf "\n   \n\t\n" = [] ∧
    load_students "" = Except.error PyError.indexError ∧
    load_students "\n   \n\t\n" = Except.error PyError.indexError :=
  ⟨rfl, rfl, rfl, rfl⟩

/-- Claim C5, counterexample: on two records with equal overall totals,
sorting ascending and then descending does not yield the reverse of the
ascending order — precisely because both sorts are stable, records with
equal totals keep their original relative order instead of being
reversed. -/
theorem claim_C5_counterexample :
    sort_records true (sort_records false
        [{ sid := "1", name := "a", coursework := [1, 1, 1], exam := 1 },
         { sid := "2", name := "b", coursework := [1, 1, 1], exam := 1 }]) ≠
      (sort_records false
        [{ sid := "1", name := "a", coursework := [1, 1, 1], exam := 1 },
         { sid := "2", name := "b", coursework := [1, 1, 1], exam := 1 }]).reverse := by
  decide

/-- Claim C5, amended: sort orders the collection by overall total — the
output is a permutation of the input, non-decreasing in total for the
ascending sort and non-increasing for the descending sort — and both
sorts are stable (records of any fixed overall total appear in the output
in their original relative order); when all overall totals are pairwise
distinct, sorting ascending and then descending yields the exact reverse
of the ascending order (on ties, stability makes the descending order
differ from the reverse). -/
theorem claim_C5 (l : List Student) (t : Int) :
    (sort_records false l).Perm l ∧
    (sort_records true l).Perm l ∧
    List.Sorted (fun a b => a.total ≤ b.total) (sort_records false l) ∧
    List.Sorted (fun a b => b.total ≤ a.total) (sort_records true l) ∧
    (sort_records false l).filter (fun s => s.total = t) =
      l.filter (fun s => s.total = t) ∧
    (sort_records true l).filter (fun s => s.total = t) =
      l.filter (fun s => s.total = t) ∧
    (l.Pairwise (fun a b => a.total ≠ b.total) →
      sort_records true (sort_records false l) = (sort_records false l).reverse) := by
  refine ⟨List.perm_insertionSort byTotalLE l, List.perm_insertionSort byTotalGE l,
    List.sorted_insertionSort byTotalLE l, List.sorted_insertionSort byTotalGE l,
    ?_, ?_, ?_⟩
  · show (List.insertionSort byTotalLE l).filter _ = _
    apply filter_insertionSort
    intro x y hx hy
    have hx2 : x.total = t := by exact_mod_cast of_decide_eq_true hx
    have hy2 : y.total = t := by exact_mod_cast of_decide_eq_true hy
    show x.total ≤ y.total
    rw [hx2, hy2]
  · show (List.insertionSort byTotalGE l).filter _ = _
    apply filter_insertionSort
    intro x y hx hy
    have hx2 : x.total = t := by exact_mod_cast of_decide_eq_true hx
    have hy2 : y.total = t := by exact_mod_cast of_decide_eq_true hy
    show y.total ≤ x.total
    rw [hx2, hy2]
  · intro hd
    have hsorted : List.Sorted byTotalLE (sort_records false l) :=
      List.sorted_insertionSort byTotalLE l
    have hperm : (sort_records false l).Perm l := List.perm_insertionSort byTotalLE l
    have hd2 : (sort_records false l).Pairwise (fun a b => a.total ≠ b.total) :=
      (hperm.pairwise_iff (fun h => totalNe_symm h)).mpr hd
    show List.insertionSort byTotalGE (sort_records false l) = (sort_records false l).reverse
    exact insertionSort_desc_eq_reverse hd2 hsorted

/-- Claim C5 witness: on two records with distinct totals, descending after
ascending is the reverse of ascending. -/
theorem claim_C5_witness :
    sort_records true (sort_records false
        [{ sid := "1", name := "a", coursework := [1, 1, 1], exam := 0 },
         { sid := "2", name := "b", coursework := [1, 1, 1], exam := 7 }]) =
      (sort_records false
        [{ sid := "1", name := "a", coursework := [1, 1, 1], exam := 0 },
         { sid := "2", name := "b", coursework := [1, 1, 1], exam := 7 }]).reverse :=
  (claim_C5 _ 0).2.2.2.2.2.2 (by decide)

/-- Claim C6, counterexample: with no record lines at all, a file whose one
line is the bare integer count "5" loads to the empty collection, while the
file without that line has no lines and load raises `IndexError` — the two
loads do not return the same collection. -/
theorem claim_C6_counterexample :
    pyInt "5" = some 5 ∧ loadStudentsFromLines ["5"] = Except.ok [] ∧
    loadStudentsFromLines [] = Except.error PyError.indexError ∧
    loadStudentsFromLines ["5"] ≠ loadStudentsFromLines [] := by
  refine ⟨by decide, rfl, rfl, ?_⟩
  intro h
  rw [show loadStudentsFromLines ["5"] = Except.ok [] from rfl,
    show loadStudentsFromLines [] = Except.error PyError.indexError from rfl] at h
  cases h

/-- Claim C6, amended: for every non-empty sequence of lines, load applied
to the lines preceded by a header line that parses as a bare integer
returns the same result as load applied to the lines alone: the count
header is discarded and its value is never checked. -/
theorem claim_C6 (header : String) (n : Int) (rest : List String) (hne : rest ≠ [])
    (hint : pyInt header = some n) :
    loadStudentsFromLines (header :: rest) = loadStudentsFromLines rest := by
  cases rest with
  | nil => exact absurd rfl hne
  | cons r rs =>
    cases hr : pyInt r with
    | some m =>
      calc loadStudentsFromLines (header :: r :: rs) = parseRecords (r :: rs) := by
            rw [loadStudentsFromLines_cons, hint]
        _ = parseRecords rs := parseRecords_skip_int rs hr
        _ = loadStudentsFromLines (r :: rs) := by rw [loadStudentsFromLines_cons, hr]
    | none =>
      calc loadStudentsFromLines (header :: r :: rs) = parseRecords (r :: rs) := by
            rw [loadStudentsFromLines_cons, hint]
        _ = loadStudentsFromLines (r :: rs) := by rw [loadStudentsFromLines_cons, hr]

/-- Claim C6 witness: a concrete file with count header "3" loads exactly
as the same file without the header. -/
theorem claim_C6_witness :
    loadStudentsFromLines ["3", "S1,Ada,45,48,50,90"] =
      loadStudentsFromLines ["S1,Ada,45,48,50,90"] :=
  claim_C6 "3" 3 ["S1,Ada,45,48,50,90"] (by decide) (by decide)

/-- Claim C7: delete removes every record whose id exactly equals the given
id (all duplicates included): the result is a sublist of the original
(records keep their original order), contains no record with the given id,
and preserves the multiplicity of every record with any other id. -/
theorem claim_C7 (l : List Student) (sid : String) :
    (delete_record l sid).Sublist l ∧
    (∀ s ∈ delete_record l sid, s.sid ≠ sid) ∧
    (∀ s : Student, s.sid = sid → s ∉ delete_record l sid) ∧
    (∀ s : Student, s.sid ≠ sid → (delete_record l sid).count s = l.count s) := by
  refine ⟨List.filter_sublist l, ?_, ?_, ?_⟩
  · intro s hs
    have h2 := (List.mem_filter.mp hs).2
    exact bne_iff_ne.mp h2
  · intro s heq hmem
    have h2 := (List.mem_filter.mp hmem).2
    exact absurd heq (bne_iff_ne.mp h2)
  · intro s hne
    exact List.count_filter (bne_iff_ne.mpr hne)

/-- Claim C7 witness: deleting id "S1" from a list with duplicate "S1"
records keeps the multiplicity of the surviving record. -/
theorem claim_C7_witness :
    (delete_record
        [{ sid := "S1", name := "a", coursework := [1, 1, 1], exam := 1 },
         { sid := "S2", name := "b", coursework := [1, 1, 1], exam := 1 },
         { sid := "S1", name := "c", coursework := [2, 2, 2], exam := 2 }] "S1").count
        { sid := "S2", name := "b", coursework := [1, 1, 1], exam := 1 } =
      ([{ sid := "S1", name := "a", coursework := [1, 1, 1], exam := 1 },
        { sid := "S2", name := "b", coursework := [1, 1, 1], exam := 1 },
        { sid := "S1", name := "c", coursework := [2, 2, 2], exam := 2 }] :
          List Student).count
        { sid := "S2", name := "b", coursework := [1, 1, 1], exam := 1 } :=
  (claim_C7 _ "S1").2.2.2 _ (by decide)

/-- Claim C8: find returns the first record in collection order whose id
equals the (stripped, lowercased) query case-insensitively or whose
lowercased name contains it as a contiguous substring; it returns nothing
exactly when no record matches; and searching "abc" matches a record with
id "ABC". -/
theorem claim_C8 (l : List Student) (query : String) :
    (∀ s, find_student l query = some s →
      (pyLower s.sid = pyLower (pyStrip query) ∨
        ∃ pre post, (pyLower s.name).toList =
          pre ++ (pyLower (pyStrip query)).toList ++ post) ∧
      ∃ pre post, l = pre ++ s :: post ∧
        ∀ t ∈ pre, matchesQuery (pyLower (pyStrip query)) t = false) ∧
    (find_student l query = none ↔
      ∀ t ∈ l, matchesQuery (pyLower (pyStrip query)) t = false) ∧
    find_student [{ sid := "ABC", name := "xy", coursework := [1, 2, 3], exam := 4 }] "abc" =
      some { sid := "ABC", name := "xy", coursework := [1, 2, 3], exam := 4 } := by
  refine ⟨?_, ?_, by decide⟩
  · intro s hs
    have hs2 : l.find? (matchesQuery (pyLower (pyStrip query))) = some s := hs
    obtain ⟨hp, pre, post, heq, hpre⟩ := find?_first _ l s hs2
    refine ⟨?_, pre, post, heq, hpre⟩
    unfold matchesQuery at hp
    have hp2 : (pyLower s.sid == pyLower (pyStrip query)) = true ∨
        pyIn (pyLower (pyStrip query)) (pyLower s.name) = true := by
      simpa only [Bool.or_eq_true] using hp
    rcases hp2 with h1 | h2
    · exact Or.inl (beq_iff_eq.mp h1)
    · right
      unfold pyIn at h2
      exact (containsSub_iff _ _).mp h2
  · constructor
    · intro h t ht
      have h0 : l.find? (matchesQuery (pyLower (pyStrip query))) = none := h
      have h2 := List.find?_eq_none.mp h0 t ht
      cases hb : matchesQuery (pyLower (pyStrip query)) t
      · rfl
      · exact absurd hb h2
    · intro h
      show l.find? (matchesQuery (pyLower (pyStrip query))) = none
      apply List.find?_eq_none.mpr
      intro t ht
      rw [h t ht]
      simp

/-- Claim C8 witness: on a two-element collection whose second record is
found by a case-insensitive id query, the found record satisfies the
match property. -/
theorem claim_C8_witness :
    pyLower "ABC" = pyLower (pyStrip "abc") ∨
      ∃ pre post, (pyLower "xy").toList = pre ++ (pyLower (pyStrip "abc")).toList ++ post :=
  ((claim_C8
      [{ sid := "Z", name := "zz", coursework := [0, 0, 0], exam := 0 },
       { sid := "ABC", name := "xy", coursework := [1, 2, 3], exam := 4 }] "abc").1
    { sid := "ABC", name := "xy", coursework := [1, 2, 3], exam := 4 } (by decide)).1

/-- Claim C9: any line that does not split on commas into exactly six
fields is silently skipped by the load loop: removing or inserting such a
line anywhere leaves the loop's result unchanged — the returned collection
omits that line's record and the line itself never causes an exception. -/
theorem claim_C9 : ∀ (xs ys : List String) (line : String),
    (lineFields line).length ≠ 6 →
    parseRecords (xs ++ line :: ys) = parseRecords (xs ++ ys)
  | [], ys, line, h => by
    rw [List.nil_append, List.nil_append]
    exact parseRecords_skip ys h
  | x :: xs, ys, line, h => by
    rw [List.cons_append, List.cons_append, parseRecords_cons_eq, parseRecords_cons_eq]
    by_cases h6 : (lineFields x).length = 6
    · rw [if_pos h6, if_pos h6]
      cases initOfFields (lineFields x) with
      | ok s => rw [claim_C9 xs ys line h]
      | error e => rfl
    · rw [if_neg h6, if_neg h6]
      exact claim_C9 xs ys line h

/-- Claim C9 witness: a five-field line between two good record lines is
skipped without affecting the result. -/
theorem claim_C9_witness :
    parseRecords (["S1,Ada,45,48,50,90"] ++ "S9,Eve,1,2,3" :: ["S2,Bob,10,10,10,20"]) =
      parseRecords (["S1,Ada,45,48,50,90"] ++ ["S2,Bob,10,10,10,20"]) :=
  claim_C9 ["S1,Ada,45,48,50,90"] ["S2,Bob,10,10,10,20"] "S9,Eve,1,2,3" (by decide)

/-- Claim C10: on a non-empty collection, a query that strips to the empty
string always matches the first record (the empty string is a substring of
every lowercased name), so find returns the head of the collection and
never "not found". -/
theorem claim_C10 (l : List Student) (query : String) (hne : l ≠ [])
    (hq : pyStrip query = "") : find_student l query = l.head? := by
  cases l with
  | nil => exact absurd rfl hne
  | cons x xs =>
    show (x :: xs).find? (matchesQuery (pyLower (pyStrip query))) = some x
    rw [hq]
    have hx : matchesQuery (pyLower "") x = true := by
      have hin : pyIn (pyLower "") (pyLower x.name) = true := by
        show containsSub (pyLower x.name).toList (pyLower "").toList = true
        rw [show (pyLower "").toList = ([] : List Char) from rfl, containsSub_eq]
        rw [show startsWith [] (pyLower x.name).toList = true from rfl]
        rfl
      unfold matchesQuery
      rw [hin, Bool.or_true]
    rw [List.find?_cons_of_pos _ hx]

/-- Claim C10 witness: a whitespace query on a one-element collection
returns that element. -/
theorem claim_C10_witness :
    find_student [{ sid := "A", name := "n", coursework := [0, 0, 0], exam := 0 }] "   " =
      some { sid := "A", name := "n", coursework := [0, 0, 0], exam := 0 } := by
  rw [claim_C10 [{ sid := "A", name := "n", coursework := [0, 0, 0], exam := 0 }] "   "
    (by decide) (by decide)]
  rfl
